import Mathlib

/-
Verification of the flux execution-core sources.

This file embeds, shallowly, the Go sources of the repository:
  - the partition-merge transformation of the universe package
    (PartitionMergeTransformation and its methods),
  - the test executor Run function (main package),
  - the interpreter bytecode synthesis (SynthesisTo),
  - the physical-plan attribute validator exercised by TestParallel_Execute
    (the validator body is not among the given sources, so it is modelled
    from the specification and pinned by the expected error strings of the
    test cases).

Machine integers: execute.Time is int64 in Go; it is embedded as Int, with
the constant maxInt64 standing for math.MaxInt64 where the source uses it
as the seed of its minimum computation.  Fallible Go code (and code that
would dereference a nil map entry, which panics at run time) is embedded
with Option: a none result marks the panic or error path.
-/

/-! Identifiers and time. execute.DatasetID is an opaque identifier,
execute.Time an int64. -/

abbrev DatasetID := Nat

abbrev Time := Int

abbrev GroupKey := Nat

/-- math.MaxInt64, the seed value of the minimum loops in the source. -/
def maxInt64 : Time := 9223372036854775807

/-! The per-parent record of the partition-merge transformation
(type parallelParentState of the source).  The Go zero value of the
struct, produced by new(parallelParentState), is mark = 0,
processing = 0, finished = false. -/

structure parallelParentState where
  mark : Time
  processing : Time
  finished : Bool
deriving DecidableEq

/-- The Go zero value new(parallelParentState). -/
def newParallelParentState : parallelParentState :=
  { mark := 0, processing := 0, finished := false }

/-
The transformation keeps a map from DatasetID to parent state.  A Go map
with a fixed key set is embedded as an association list built from the
construction-time parent list; if the same id were registered twice the Go
map would keep one entry, while this list keeps duplicate entries that the
update function keeps in lockstep, so lookup, the minimum loops and the
all-finished loop compute the same answers.
-/

structure PartitionMergeTransformation where
  parentState : List (DatasetID × parallelParentState)
deriving DecidableEq

/-- NewPartitionMergeTransformation: one fresh zero-valued state per
registered parent id. -/
def NewPartitionMergeTransformation (parents : List DatasetID) :
    PartitionMergeTransformation :=
  ⟨parents.map (fun id => (id, newParallelParentState))⟩

/-- Lookup of t.parentState[id]; none embeds the absent map entry, whose
dereference in the source is a nil-pointer panic. -/
def mapLookup (l : List (DatasetID × parallelParentState)) (id : DatasetID) :
    Option parallelParentState :=
  match l with
  | [] => none
  | (k, v) :: rest => if k = id then some v else mapLookup rest id

/-- In-place mutation of the map entry for id (Go writes through the
pointer stored in the map). -/
def mapUpdate (l : List (DatasetID × parallelParentState)) (id : DatasetID)
    (f : parallelParentState → parallelParentState) :
    List (DatasetID × parallelParentState) :=
  l.map (fun e => if e.1 = id then (e.1, f e.2) else e)

/-- The minimum loop of the source:
min := math.MaxInt64; for each value, if v < min, min = v. -/
def goMin (init : Time) (vals : List Time) : Time :=
  vals.foldl (fun m x => if x < m then x else m) init

/-- Calls made on the downstream Dataset, in order, by one method call of
the transformation. -/
inductive DatasetEffect where
  | watermark (v : Time)
  | processingTime (v : Time)
  | retract (key : GroupKey)
  | finish (err : Option Nat)
deriving DecidableEq

/-- UpdateWatermark (source lines 114 to 128): store the mark of the
calling parent, then forward the minimum mark over all parents.  A call
with an unregistered id is none: the source dereferences a nil map
entry. -/
def PartitionMergeTransformation.UpdateWatermark
    (t : PartitionMergeTransformation) (id : DatasetID) (mark : Time) :
    Option (List DatasetEffect × PartitionMergeTransformation) :=
  (mapLookup t.parentState id).map (fun _ =>
    let ps := mapUpdate t.parentState id (fun s => { s with mark := mark })
    ([DatasetEffect.watermark (goMin maxInt64 (ps.map (fun e => e.2.mark)))], ⟨ps⟩))

/-- UpdateProcessingTime (source lines 130 to 144), same shape as
UpdateWatermark over the processing field. -/
def PartitionMergeTransformation.UpdateProcessingTime
    (t : PartitionMergeTransformation) (id : DatasetID) (pt : Time) :
    Option (List DatasetEffect × PartitionMergeTransformation) :=
  (mapLookup t.parentState id).map (fun _ =>
    let ps := mapUpdate t.parentState id (fun s => { s with processing := pt })
    ([DatasetEffect.processingTime (goMin maxInt64 (ps.map (fun e => e.2.processing)))], ⟨ps⟩))

/-- RetractTable (source lines 74 to 76): forward the group key to the
Dataset and return that call unchanged; the parent-state map is not
touched and the parent id is not looked up. -/
def PartitionMergeTransformation.RetractTable
    (t : PartitionMergeTransformation) (_id : DatasetID) (key : GroupKey) :
    Option (List DatasetEffect × PartitionMergeTransformation) :=
  some ([DatasetEffect.retract key], t)

/-- Finish (source lines 146 to 168): mark the calling parent finished;
forward a non-nil error at once; then, whenever every parent is finished,
also forward Finish(nil). -/
def PartitionMergeTransformation.Finish
    (t : PartitionMergeTransformation) (id : DatasetID) (err : Option Nat) :
    Option (List DatasetEffect × PartitionMergeTransformation) :=
  (mapLookup t.parentState id).map (fun _ =>
    let ps := mapUpdate t.parentState id (fun s => { s with finished := true })
    let errEffs : List DatasetEffect :=
      match err with
      | some e => [DatasetEffect.finish (some e)]
      | none => []
    let fin := ps.foldl (fun b e => b && e.2.finished) true
    (errEffs ++ (if fin then [DatasetEffect.finish none] else []), ⟨ps⟩))

/-! Call sequences from the parents, and their execution. -/

inductive PMCall where
  | updateWatermark (id : DatasetID) (mark : Time)
  | updateProcessingTime (id : DatasetID) (pt : Time)
  | retractTable (id : DatasetID) (key : GroupKey)
  | finish (id : DatasetID) (err : Option Nat)
deriving DecidableEq

def callId : PMCall → DatasetID
  | PMCall.updateWatermark id _ => id
  | PMCall.updateProcessingTime id _ => id
  | PMCall.retractTable id _ => id
  | PMCall.finish id _ => id

/-- The time argument of an update call (0 for the other calls). -/
def callTime : PMCall → Time
  | PMCall.updateWatermark _ m => m
  | PMCall.updateProcessingTime _ t => t
  | _ => 0

def step (t : PartitionMergeTransformation) :
    PMCall → Option (List DatasetEffect × PartitionMergeTransformation)
  | PMCall.updateWatermark id m => t.UpdateWatermark id m
  | PMCall.updateProcessingTime id p => t.UpdateProcessingTime id p
  | PMCall.retractTable id k => t.RetractTable id k
  | PMCall.finish id e => t.Finish id e

/-- Execute a sequence of calls, collecting the Dataset calls of each
step; none as soon as one step panics. -/
def runCalls (t : PartitionMergeTransformation) :
    List PMCall → Option (List (List DatasetEffect) × PartitionMergeTransformation)
  | [] => some ([], t)
  | c :: cs =>
    match step t c with
    | none => none
    | some (eff, t') =>
      match runCalls t' cs with
      | none => none
      | some (effs, t'') => some (eff :: effs, t'')

/-! Specification-side descriptions of the state reached after a call
sequence, used to characterise runCalls. -/

/-- Latest watermark supplied by parent p in the sequence; 0 (the value
installed at construction) when p has not called yet. -/
def lastMarkOf (p : DatasetID) (cs : List PMCall) : Time :=
  cs.foldl (fun acc c =>
    match c with
    | PMCall.updateWatermark id m => if id = p then m else acc
    | _ => acc) 0

/-- Latest processing time supplied by parent p, 0 before the first call. -/
def lastPTOf (p : DatasetID) (cs : List PMCall) : Time :=
  cs.foldl (fun acc c =>
    match c with
    | PMCall.updateProcessingTime id t => if id = p then t else acc
    | _ => acc) 0

def isFinishOf (p : DatasetID) : PMCall → Bool
  | PMCall.finish id _ => id = p
  | _ => false

/-- Whether parent p has issued a Finish call in the sequence. -/
def finishedIn (p : DatasetID) (cs : List PMCall) : Bool :=
  cs.any (isFinishOf p)

def allFinishedIn (parents : List DatasetID) (cs : List PMCall) : Bool :=
  parents.all (fun p => finishedIn p cs)

/-- The parent-state map determined by a call sequence. -/
def specState (parents : List DatasetID) (cs : List PMCall) :
    PartitionMergeTransformation :=
  ⟨parents.map (fun p =>
    (p, ⟨lastMarkOf p cs, lastPTOf p cs, finishedIn p cs⟩))⟩

/-- The minimum over all parents of the latest watermark each supplied. -/
def specMinMark (parents : List DatasetID) (cs : List PMCall) : Time :=
  goMin maxInt64 (parents.map (fun p => lastMarkOf p cs))

/-- The minimum over all parents of the latest processing time each
supplied. -/
def specMinPT (parents : List DatasetID) (cs : List PMCall) : Time :=
  goMin maxInt64 (parents.map (fun p => lastPTOf p cs))

/-- Dataset calls produced by the call c, where cs is the whole sequence
up to and including c. -/
def effFor (parents : List DatasetID) (cs : List PMCall) : PMCall → List DatasetEffect
  | PMCall.updateWatermark _ _ => [DatasetEffect.watermark (specMinMark parents cs)]
  | PMCall.updateProcessingTime _ _ => [DatasetEffect.processingTime (specMinPT parents cs)]
  | PMCall.retractTable _ k => [DatasetEffect.retract k]
  | PMCall.finish _ e =>
      (match e with
       | some x => [DatasetEffect.finish (some x)]
       | none => [])
      ++ (if allFinishedIn parents cs then [DatasetEffect.finish none] else [])

/-- Per-call Dataset effects of a sequence cs executed after the earlier
calls pre. -/
def effsFrom (parents : List DatasetID) (pre : List PMCall) :
    List PMCall → List (List DatasetEffect)
  | [] => []
  | c :: cs => effFor parents (pre ++ [c]) c :: effsFrom parents (pre ++ [c]) cs

/-! Facts about the minimum loop of the source. -/

theorem goMin_cons (init x : Time) (xs : List Time) :
    goMin init (x :: xs) = goMin (if x < init then x else init) xs := rfl

theorem goMin_le_init (init : Time) (vals : List Time) : goMin init vals ≤ init := by
  induction vals generalizing init with
  | nil => exact le_refl _
  | cons x xs ih =>
    rw [goMin_cons]
    refine le_trans (ih (if x < init then x else init)) ?_
    split <;> linarith

theorem goMin_le_mem (init : Time) (vals : List Time) :
    ∀ x ∈ vals, goMin init vals ≤ x := by
  induction vals generalizing init with
  | nil => intro x hx; cases hx
  | cons y ys ih =>
    intro x hx
    rw [goMin_cons]
    rcases List.mem_cons.mp hx with rfl | hx
    · refine le_trans (goMin_le_init (if x < init then x else init) ys) ?_
      split <;> linarith
    · exact ih _ x hx

theorem goMin_eq_init_or_mem (init : Time) (vals : List Time) :
    goMin init vals = init ∨ goMin init vals ∈ vals := by
  induction vals generalizing init with
  | nil => exact Or.inl rfl
  | cons x xs ih =>
    rw [goMin_cons]
    rcases ih (if x < init then x else init) with h | h
    · by_cases hx : x < init
      · right; rw [h, if_pos hx]; exact List.mem_cons_self _ _
      · left; rw [h, if_neg hx]
    · right; exact List.mem_cons_of_mem _ h

theorem goMin_mono {init init' : Time} {vals vals' : List Time}
    (hv : List.Forall₂ (fun a b => a ≤ b) vals vals') (hi : init ≤ init') :
    goMin init vals ≤ goMin init' vals' := by
  induction hv generalizing init init' with
  | nil => exact hi
  | @cons a b l₁ l₂ hab htail ih =>
    rw [goMin_cons, goMin_cons]
    refine ih ?_
    split <;> split <;> linarith

/-! Facts about the association-list embedding of the parent map. -/

theorem mapLookup_map (l : List DatasetID) (f : DatasetID → parallelParentState)
    (id : DatasetID) :
    mapLookup (l.map (fun p => (p, f p))) id = if id ∈ l then some (f id) else none := by
  induction l with
  | nil => simp [mapLookup]
  | cons p ps ih =>
    by_cases h : p = id
    · subst h
      simp [mapLookup, List.mem_cons]
    · have h' : ¬ id = p := fun hh => h hh.symm
      simp [mapLookup, h, h', ih, List.mem_cons]

theorem mapUpdate_map (l : List DatasetID) (f : DatasetID → parallelParentState)
    (id : DatasetID) (g : parallelParentState → parallelParentState) :
    mapUpdate (l.map (fun p => (p, f p))) id g
      = l.map (fun p => (p, if p = id then g (f p) else f p)) := by
  unfold mapUpdate
  rw [List.map_map]
  refine List.map_congr_left ?_
  intro a _
  by_cases h : a = id <;> simp [h]

theorem foldl_and_eq_all {α : Type} (f : α → Bool) (l : List α) (b : Bool) :
    l.foldl (fun acc x => acc && f x) b = (b && l.all f) := by
  induction l generalizing b with
  | nil => simp
  | cons x xs ih => simp [ih, List.all_cons, Bool.and_assoc]

/-! Appending one call to a sequence updates the latest-value trackers. -/

theorem lastMarkOf_snoc (p : DatasetID) (cs : List PMCall) (c : PMCall) :
    lastMarkOf p (cs ++ [c])
      = match c with
        | PMCall.updateWatermark id m => if id = p then m else lastMarkOf p cs
        | _ => lastMarkOf p cs := by
  cases c <;> simp [lastMarkOf, List.foldl_append]

theorem lastPTOf_snoc (p : DatasetID) (cs : List PMCall) (c : PMCall) :
    lastPTOf p (cs ++ [c])
      = match c with
        | PMCall.updateProcessingTime id t => if id = p then t else lastPTOf p cs
        | _ => lastPTOf p cs := by
  cases c <;> simp [lastPTOf, List.foldl_append]

theorem finishedIn_snoc (p : DatasetID) (cs : List PMCall) (c : PMCall) :
    finishedIn p (cs ++ [c])
      = match c with
        | PMCall.finish id _ => (finishedIn p cs || decide (id = p))
        | _ => finishedIn p cs := by
  cases c <;> simp [finishedIn, isFinishOf, List.any_append]

/-! Characterisation of a single method call issued to the state reached
after an earlier call sequence. -/

theorem specState_snoc_uw (parents : List DatasetID) (pre : List PMCall)
    (id : DatasetID) (m : Time) :
    (specState parents (pre ++ [PMCall.updateWatermark id m])).parentState
      = mapUpdate (specState parents pre).parentState id (fun s => { s with mark := m }) := by
  unfold specState
  rw [mapUpdate_map]
  refine List.map_congr_left ?_
  intro a _
  by_cases h : a = id
  · subst h
    simp [lastMarkOf_snoc, lastPTOf_snoc, finishedIn_snoc]
  · have h' : ¬ id = a := fun hh => h hh.symm
    simp [h, h', lastMarkOf_snoc, lastPTOf_snoc, finishedIn_snoc]

theorem specState_snoc_upt (parents : List DatasetID) (pre : List PMCall)
    (id : DatasetID) (t : Time) :
    (specState parents (pre ++ [PMCall.updateProcessingTime id t])).parentState
      = mapUpdate (specState parents pre).parentState id (fun s => { s with processing := t }) := by
  unfold specState
  rw [mapUpdate_map]
  refine List.map_congr_left ?_
  intro a _
  by_cases h : a = id
  · subst h
    simp [lastMarkOf_snoc, lastPTOf_snoc, finishedIn_snoc]
  · have h' : ¬ id = a := fun hh => h hh.symm
    simp [h, h', lastMarkOf_snoc, lastPTOf_snoc, finishedIn_snoc]

theorem specState_snoc_retract (parents : List DatasetID) (pre : List PMCall)
    (id : DatasetID) (k : GroupKey) :
    specState parents (pre ++ [PMCall.retractTable id k]) = specState parents pre := by
  unfold specState
  congr 1
  refine List.map_congr_left ?_
  intro a _
  simp [lastMarkOf_snoc, lastPTOf_snoc, finishedIn_snoc]

theorem specState_snoc_finish (parents : List DatasetID) (pre : List PMCall)
    (id : DatasetID) (e : Option Nat) :
    (specState parents (pre ++ [PMCall.finish id e])).parentState
      = mapUpdate (specState parents pre).parentState id (fun s => { s with finished := true }) := by
  unfold specState
  rw [mapUpdate_map]
  refine List.map_congr_left ?_
  intro a _
  by_cases h : a = id
  · subst h
    simp [lastMarkOf_snoc, lastPTOf_snoc, finishedIn_snoc]
  · have h' : ¬ id = a := fun hh => h hh.symm
    simp [h, h', lastMarkOf_snoc, lastPTOf_snoc, finishedIn_snoc]

theorem specState_marks (parents : List DatasetID) (cs : List PMCall) :
    (specState parents cs).parentState.map (fun e => e.2.mark)
      = parents.map (fun p => lastMarkOf p cs) := by
  unfold specState
  rw [List.map_map]
  rfl

theorem specState_pts (parents : List DatasetID) (cs : List PMCall) :
    (specState parents cs).parentState.map (fun e => e.2.processing)
      = parents.map (fun p => lastPTOf p cs) := by
  unfold specState
  rw [List.map_map]
  rfl

theorem specState_allFinished (parents : List DatasetID) (cs : List PMCall) :
    (specState parents cs).parentState.foldl (fun b e => b && e.2.finished) true
      = allFinishedIn parents cs := by
  unfold specState allFinishedIn
  rw [List.foldl_map]
  have := foldl_and_eq_all (fun p => finishedIn p cs) parents true
  simpa using this

theorem step_specState (parents : List DatasetID) (pre : List PMCall) (c : PMCall)
    (hc : callId c ∈ parents) :
    step (specState parents pre) c
      = some (effFor parents (pre ++ [c]) c, specState parents (pre ++ [c])) := by
  cases c with
  | updateWatermark id m =>
    simp only [callId] at hc
    show PartitionMergeTransformation.UpdateWatermark (specState parents pre) id m = _
    unfold PartitionMergeTransformation.UpdateWatermark
    have hl : mapLookup (specState parents pre).parentState id
        = some ⟨lastMarkOf id pre, lastPTOf id pre, finishedIn id pre⟩ := by
      unfold specState
      rw [mapLookup_map, if_pos hc]
    rw [hl, Option.map_some']
    rw [← specState_snoc_uw]
    have hm := specState_marks parents (pre ++ [PMCall.updateWatermark id m])
    simp only [effFor, specMinMark]
    rw [hm]
  | updateProcessingTime id t =>
    simp only [callId] at hc
    show PartitionMergeTransformation.UpdateProcessingTime (specState parents pre) id t = _
    unfold PartitionMergeTransformation.UpdateProcessingTime
    have hl : mapLookup (specState parents pre).parentState id
        = some ⟨lastMarkOf id pre, lastPTOf id pre, finishedIn id pre⟩ := by
      unfold specState
      rw [mapLookup_map, if_pos hc]
    rw [hl, Option.map_some']
    rw [← specState_snoc_upt]
    have hm := specState_pts parents (pre ++ [PMCall.updateProcessingTime id t])
    simp only [effFor, specMinPT]
    rw [hm]
  | retractTable id k =>
    show PartitionMergeTransformation.RetractTable (specState parents pre) id k = _
    unfold PartitionMergeTransformation.RetractTable
    rw [specState_snoc_retract]
    rfl
  | finish id e =>
    simp only [callId] at hc
    show PartitionMergeTransformation.Finish (specState parents pre) id e = _
    unfold PartitionMergeTransformation.Finish
    have hl : mapLookup (specState parents pre).parentState id
        = some ⟨lastMarkOf id pre, lastPTOf id pre, finishedIn id pre⟩ := by
      unfold specState
      rw [mapLookup_map, if_pos hc]
    rw [hl, Option.map_some']
    rw [← specState_snoc_finish]
    have hf := specState_allFinished parents (pre ++ [PMCall.finish id e])
    simp only [effFor]
    rw [hf]

theorem new_eq_specState (parents : List DatasetID) :
    NewPartitionMergeTransformation parents = specState parents [] := rfl

theorem runCalls_specState (parents : List DatasetID) (cs : List PMCall) :
    ∀ pre : List PMCall, (∀ c ∈ cs, callId c ∈ parents) →
      runCalls (specState parents pre) cs
        = some (effsFrom parents pre cs, specState parents (pre ++ cs)) := by
  induction cs with
  | nil =>
    intro pre _
    simp [runCalls, effsFrom]
  | cons c cs ih =>
    intro pre h
    have hc : callId c ∈ parents := h c (List.mem_cons_self _ _)
    have hrest : ∀ d ∈ cs, callId d ∈ parents :=
      fun d hd => h d (List.mem_cons_of_mem _ hd)
    have hstep := step_specState parents pre c hc
    have htail := ih (pre ++ [c]) hrest
    simp only [runCalls, hstep, htail, effsFrom]
    rw [List.append_assoc]
    rfl

theorem runCalls_new (parents : List DatasetID) (cs : List PMCall)
    (h : ∀ c ∈ cs, callId c ∈ parents) :
    runCalls (NewPartitionMergeTransformation parents) cs
      = some (effsFrom parents [] cs, specState parents cs) := by
  rw [new_eq_specState, runCalls_specState parents cs [] h]
  rfl

theorem effsFrom_getElem (parents : List DatasetID) (cs : List PMCall) :
    ∀ (pre : List PMCall) (k : Nat),
      (effsFrom parents pre cs)[k]?
        = (cs[k]?).map (fun c => effFor parents (pre ++ cs.take (k + 1)) c) := by
  induction cs with
  | nil =>
    intro pre k
    simp [effsFrom]
  | cons c cs ih =>
    intro pre k
    cases k with
    | zero =>
      simp [effsFrom]
    | succ n =>
      simp only [effsFrom, List.getElem?_cons_succ, ih (pre ++ [c]) n,
        List.take_succ_cons, List.append_assoc]
      rfl

/-! Bounds and attainment for the forwarded minimum. -/

theorem lastMarkOf_le_max (p : DatasetID) (cs : List PMCall) :
    (∀ c ∈ cs, callTime c ≤ maxInt64) → lastMarkOf p cs ≤ maxInt64 := by
  induction cs using List.reverseRecOn with
  | nil =>
    intro _
    show (0 : Time) ≤ maxInt64
    norm_num [maxInt64]
  | append_singleton l c ih =>
    intro h
    have hl : ∀ d ∈ l, callTime d ≤ maxInt64 := fun d hd => h d (by simp [hd])
    have hc : callTime c ≤ maxInt64 := h c (by simp)
    cases c with
    | updateWatermark id m =>
      rw [lastMarkOf_snoc]
      simp only [callTime] at hc
      by_cases hip : id = p
      · simpa [hip] using hc
      · simpa [hip] using ih hl
    | updateProcessingTime id t => rw [lastMarkOf_snoc]; exact ih hl
    | retractTable id k => rw [lastMarkOf_snoc]; exact ih hl
    | finish id e => rw [lastMarkOf_snoc]; exact ih hl

theorem lastPTOf_le_max (p : DatasetID) (cs : List PMCall) :
    (∀ c ∈ cs, callTime c ≤ maxInt64) → lastPTOf p cs ≤ maxInt64 := by
  induction cs using List.reverseRecOn with
  | nil =>
    intro _
    show (0 : Time) ≤ maxInt64
    norm_num [maxInt64]
  | append_singleton l c ih =>
    intro h
    have hl : ∀ d ∈ l, callTime d ≤ maxInt64 := fun d hd => h d (by simp [hd])
    have hc : callTime c ≤ maxInt64 := h c (by simp)
    cases c with
    | updateProcessingTime id t =>
      rw [lastPTOf_snoc]
      simp only [callTime] at hc
      by_cases hip : id = p
      · simpa [hip] using hc
      · simpa [hip] using ih hl
    | updateWatermark id m => rw [lastPTOf_snoc]; exact ih hl
    | retractTable id k => rw [lastPTOf_snoc]; exact ih hl
    | finish id e => rw [lastPTOf_snoc]; exact ih hl

theorem specMinMark_le (parents : List DatasetID) (cs : List PMCall)
    {p : DatasetID} (hp : p ∈ parents) :
    specMinMark parents cs ≤ lastMarkOf p cs :=
  goMin_le_mem _ _ _ (List.mem_map_of_mem _ hp)

theorem specMinPT_le (parents : List DatasetID) (cs : List PMCall)
    {p : DatasetID} (hp : p ∈ parents) :
    specMinPT parents cs ≤ lastPTOf p cs :=
  goMin_le_mem _ _ _ (List.mem_map_of_mem _ hp)

theorem specMinMark_attained (parents : List DatasetID) (cs : List PMCall)
    (hne : parents ≠ []) (hb : ∀ c ∈ cs, callTime c ≤ maxInt64) :
    ∃ p ∈ parents, specMinMark parents cs = lastMarkOf p cs := by
  rcases goMin_eq_init_or_mem maxInt64 (parents.map (fun p => lastMarkOf p cs)) with h | h
  · obtain ⟨p0, hp0⟩ : ∃ p0, p0 ∈ parents := by
      cases parents with
      | nil => exact absurd rfl hne
      | cons a l => exact ⟨a, List.mem_cons_self _ _⟩
    refine ⟨p0, hp0, ?_⟩
    have h1 := specMinMark_le parents cs hp0
    have h2 := lastMarkOf_le_max p0 cs hb
    unfold specMinMark at h1 ⊢
    rw [h] at h1 ⊢
    exact le_antisymm h1 h2
  · rcases List.mem_map.mp h with ⟨p, hp, hpe⟩
    exact ⟨p, hp, hpe.symm⟩

theorem specMinPT_attained (parents : List DatasetID) (cs : List PMCall)
    (hne : parents ≠ []) (hb : ∀ c ∈ cs, callTime c ≤ maxInt64) :
    ∃ p ∈ parents, specMinPT parents cs = lastPTOf p cs := by
  rcases goMin_eq_init_or_mem maxInt64 (parents.map (fun p => lastPTOf p cs)) with h | h
  · obtain ⟨p0, hp0⟩ : ∃ p0, p0 ∈ parents := by
      cases parents with
      | nil => exact absurd rfl hne
      | cons a l => exact ⟨a, List.mem_cons_self _ _⟩
    refine ⟨p0, hp0, ?_⟩
    have h1 := specMinPT_le parents cs hp0
    have h2 := lastPTOf_le_max p0 cs hb
    unfold specMinPT at h1 ⊢
    rw [h] at h1 ⊢
    exact le_antisymm h1 h2
  · rcases List.mem_map.mp h with ⟨p, hp, hpe⟩
    exact ⟨p, hp, hpe.symm⟩

/-- C1: for every partition-merge transformation built over a nonempty
parent list and every sequence of calls from those parents whose time
arguments are int64 values, each UpdateWatermark call forwards to the
Dataset exactly one watermark, equal to the minimum over all parents of
the latest watermark supplied by each parent so far (a parent that has
not yet called counts with the initial value 0 installed at
construction), and each UpdateProcessingTime call likewise forwards the
minimum of the latest processing times.  The minimum is stated as: the
forwarded value is a lower bound of every latest value and is attained at
some parent. -/
theorem partitionMerge_forwards_min (parents : List DatasetID) (cs : List PMCall)
    (hne : parents ≠ [])
    (hids : ∀ c ∈ cs, callId c ∈ parents)
    (hb : ∀ c ∈ cs, callTime c ≤ maxInt64) :
    ∃ effs t',
      runCalls (NewPartitionMergeTransformation parents) cs = some (effs, t')
      ∧ (∀ k id m, cs[k]? = some (PMCall.updateWatermark id m) →
          ∃ v, effs[k]? = some [DatasetEffect.watermark v]
            ∧ (∀ p ∈ parents, v ≤ lastMarkOf p (cs.take (k + 1)))
            ∧ (∃ p ∈ parents, v = lastMarkOf p (cs.take (k + 1))))
      ∧ (∀ k id t, cs[k]? = some (PMCall.updateProcessingTime id t) →
          ∃ v, effs[k]? = some [DatasetEffect.processingTime v]
            ∧ (∀ p ∈ parents, v ≤ lastPTOf p (cs.take (k + 1)))
            ∧ (∃ p ∈ parents, v = lastPTOf p (cs.take (k + 1)))) := by
  refine ⟨effsFrom parents [] cs, specState parents cs, runCalls_new parents cs hids, ?_, ?_⟩
  · intro k id m hk
    have hsub : ∀ c ∈ cs.take (k + 1), callTime c ≤ maxInt64 :=
      fun c hc => hb c (List.take_subset (k + 1) cs hc)
    have he := effsFrom_getElem parents cs [] k
    rw [hk, Option.map_some'] at he
    refine ⟨specMinMark parents (cs.take (k + 1)), ?_, ?_, ?_⟩
    · rw [he]; rfl
    · intro p hp
      exact specMinMark_le parents (cs.take (k + 1)) hp
    · exact specMinMark_attained parents (cs.take (k + 1)) hne hsub
  · intro k id t hk
    have hsub : ∀ c ∈ cs.take (k + 1), callTime c ≤ maxInt64 :=
      fun c hc => hb c (List.take_subset (k + 1) cs hc)
    have he := effsFrom_getElem parents cs [] k
    rw [hk, Option.map_some'] at he
    refine ⟨specMinPT parents (cs.take (k + 1)), ?_, ?_, ?_⟩
    · rw [he]; rfl
    · intro p hp
      exact specMinPT_le parents (cs.take (k + 1)) hp
    · exact specMinPT_attained parents (cs.take (k + 1)) hne hsub

/-- Witness for C1 at a concrete input: two parents, a watermark from
each. -/
theorem partitionMerge_forwards_min_witness :
    (([0, 1] : List DatasetID) ≠ [])
    ∧ (∀ c ∈ [PMCall.updateWatermark 0 5, PMCall.updateWatermark 1 3],
        callId c ∈ ([0, 1] : List DatasetID))
    ∧ (∀ c ∈ [PMCall.updateWatermark 0 5, PMCall.updateWatermark 1 3],
        callTime c ≤ maxInt64)
    ∧ (∃ effs t',
        runCalls (NewPartitionMergeTransformation [0, 1])
            [PMCall.updateWatermark 0 5, PMCall.updateWatermark 1 3]
          = some (effs, t')
        ∧ (∀ k id m,
            ([PMCall.updateWatermark 0 5, PMCall.updateWatermark 1 3])[k]?
              = some (PMCall.updateWatermark id m) →
            ∃ v, effs[k]? = some [DatasetEffect.watermark v]
              ∧ (∀ p ∈ ([0, 1] : List DatasetID),
                  v ≤ lastMarkOf p (([PMCall.updateWatermark 0 5,
                    PMCall.updateWatermark 1 3]).take (k + 1)))
              ∧ (∃ p ∈ ([0, 1] : List DatasetID),
                  v = lastMarkOf p (([PMCall.updateWatermark 0 5,
                    PMCall.updateWatermark 1 3]).take (k + 1))))
        ∧ (∀ k id t,
            ([PMCall.updateWatermark 0 5, PMCall.updateWatermark 1 3])[k]?
              = some (PMCall.updateProcessingTime id t) →
            ∃ v, effs[k]? = some [DatasetEffect.processingTime v]
              ∧ (∀ p ∈ ([0, 1] : List DatasetID),
                  v ≤ lastPTOf p (([PMCall.updateWatermark 0 5,
                    PMCall.updateWatermark 1 3]).take (k + 1)))
              ∧ (∃ p ∈ ([0, 1] : List DatasetID),
                  v = lastPTOf p (([PMCall.updateWatermark 0 5,
                    PMCall.updateWatermark 1 3]).take (k + 1))))) :=
  ⟨by decide, by decide, by decide,
    partitionMerge_forwards_min [0, 1]
      [PMCall.updateWatermark 0 5, PMCall.updateWatermark 1 3]
      (by decide) (by decide) (by decide)⟩

/-- C2: under error-free Finish calls from registered parents, the
partition-merge transformation never calls Finish on its Dataset at a
step unless every parent registered at construction has already issued
its Finish call at or before that step. -/
theorem partitionMerge_finish_fanin (parents : List DatasetID) (cs : List PMCall)
    (hfin : ∀ c ∈ cs, ∃ id ∈ parents, c = PMCall.finish id none) :
    ∃ effs t',
      runCalls (NewPartitionMergeTransformation parents) cs = some (effs, t')
      ∧ ∀ (k : Nat) (l : List DatasetEffect), effs[k]? = some l → l ≠ [] →
          ∀ p ∈ parents, ∃ j : Nat, j ≤ k ∧ cs[j]? = some (PMCall.finish p none) := by
  have hids : ∀ c ∈ cs, callId c ∈ parents := by
    intro c hc
    rcases hfin c hc with ⟨id, hid, rfl⟩
    exact hid
  refine ⟨effsFrom parents [] cs, specState parents cs, runCalls_new parents cs hids, ?_⟩
  intro k l hk hl p hp
  have he := effsFrom_getElem parents cs [] k
  rw [hk] at he
  cases hck : cs[k]? with
  | none => rw [hck] at he; exact absurd he.symm (by simp)
  | some c =>
    rw [hck, Option.map_some'] at he
    rw [List.nil_append] at he
    have hcmem : c ∈ cs := by
      rw [List.mem_iff_getElem?]; exact ⟨k, hck⟩
    rcases hfin c hcmem with ⟨id, hid, rfl⟩
    have hl2 : l = effFor parents (cs.take (k + 1)) (PMCall.finish id none) :=
      Option.some.inj he
    by_cases hall : allFinishedIn parents (cs.take (k + 1)) = true
    · -- every parent finished within the first k + 1 calls
      have hfp : finishedIn p (cs.take (k + 1)) = true := by
        have := (List.all_eq_true).mp hall p hp
        simpa using this
      rcases (List.any_eq_true).mp hfp with ⟨c', hc'mem, hc'⟩
      rcases (List.mem_iff_getElem?).mp hc'mem with ⟨j, hj⟩
      rw [List.getElem?_take] at hj
      by_cases hjk : j < k + 1
      · rw [if_pos hjk] at hj
        have hc'cs : c' ∈ cs := by
          rw [List.mem_iff_getElem?]; exact ⟨j, hj⟩
        rcases hfin c' hc'cs with ⟨id', hid', rfl⟩
        have : id' = p := by simpa [isFinishOf] using hc'
        subst this
        exact ⟨j, Nat.lt_succ_iff.mp hjk, hj⟩
      · rw [if_neg hjk] at hj; cases hj
    · -- no Dataset call was made at this step: contradiction with l ≠ []
      exfalso
      apply hl
      rw [hl2]
      simp only [effFor]
      rw [if_neg hall]
      simp

/-- Witness for C2 at a concrete input: both parents finish cleanly. -/
theorem partitionMerge_finish_fanin_witness :
    (∀ c ∈ [PMCall.finish 0 none, PMCall.finish 1 none],
        ∃ id ∈ ([0, 1] : List DatasetID), c = PMCall.finish id none)
    ∧ (∃ effs t',
        runCalls (NewPartitionMergeTransformation [0, 1])
            [PMCall.finish 0 none, PMCall.finish 1 none]
          = some (effs, t')
        ∧ ∀ (k : Nat) (l : List DatasetEffect), effs[k]? = some l → l ≠ [] →
            ∀ p ∈ ([0, 1] : List DatasetID),
              ∃ j : Nat, j ≤ k ∧ ([PMCall.finish 0 none, PMCall.finish 1 none])[j]?
                = some (PMCall.finish p none)) :=
  ⟨by decide,
    partitionMerge_finish_fanin [0, 1]
      [PMCall.finish 0 none, PMCall.finish 1 none] (by decide)⟩

/-- C3, evaluated at the failing input: with parents 0 and 1, after
Finish(0, nil), the call Finish(1, err) forwards Finish(err) to the
Dataset and then also forwards Finish(nil) in the same call, because the
all-finished sweep runs unconditionally after the error branch (the
branch the source marks with a FIXME comment).  The claim says the
Dataset receives no completion signal other than Finish(err). -/
theorem partitionMerge_finish_error_double_signal :
    runCalls (NewPartitionMergeTransformation [0, 1])
        [PMCall.finish 0 none, PMCall.finish 1 (some 7)]
      = some ([[], [DatasetEffect.finish (some 7), DatasetEffect.finish none]],
          ⟨[(0, ⟨0, 0, true⟩), (1, ⟨0, 0, true⟩)]⟩) := by
  decide

/-- C7: RetractTable forwards exactly the given group key to the Dataset
(the single Dataset call of the method, whose result the source returns
unchanged) and leaves the transformation state, in particular the
parent-state map, untouched; the parent id is not even consulted. -/
theorem partitionMerge_retractTable_passthrough :
    ∀ (t : PartitionMergeTransformation) (id : DatasetID) (key : GroupKey),
      t.RetractTable id key = some ([DatasetEffect.retract key], t) :=
  fun _ _ _ => rfl

theorem specState_keys (parents : List DatasetID) (cs : List PMCall) :
    (specState parents cs).parentState.map Prod.fst = parents := by
  unfold specState
  rw [List.map_map]
  exact List.map_id parents

/-- C9: after any successful run of calls whose ids are all registered,
the key list of the parent-state map is exactly the construction-time
parent list, and on the reached state UpdateWatermark,
UpdateProcessingTime and Finish succeed (isSome) precisely for registered
parent ids; for an unregistered id they are none, the embedding of the
nil-map-entry dereference panic of the source. -/
theorem partitionMerge_parentState_stable (parents : List DatasetID) (cs : List PMCall)
    (hids : ∀ c ∈ cs, callId c ∈ parents) :
    ∃ effs t',
      runCalls (NewPartitionMergeTransformation parents) cs = some (effs, t')
      ∧ t'.parentState.map Prod.fst = parents
      ∧ (∀ (id : DatasetID) (m : Time), (t'.UpdateWatermark id m).isSome ↔ id ∈ parents)
      ∧ (∀ (id : DatasetID) (t : Time), (t'.UpdateProcessingTime id t).isSome ↔ id ∈ parents)
      ∧ (∀ (id : DatasetID) (e : Option Nat), (t'.Finish id e).isSome ↔ id ∈ parents) := by
  refine ⟨effsFrom parents [] cs, specState parents cs, runCalls_new parents cs hids,
    specState_keys parents cs, ?_, ?_, ?_⟩
  · intro id m
    unfold PartitionMergeTransformation.UpdateWatermark
    unfold specState
    rw [mapLookup_map]
    by_cases h : id ∈ parents
    · simp [h]
    · simp [h]
  · intro id t
    unfold PartitionMergeTransformation.UpdateProcessingTime
    unfold specState
    rw [mapLookup_map]
    by_cases h : id ∈ parents
    · simp [h]
    · simp [h]
  · intro id e
    unfold PartitionMergeTransformation.Finish
    unfold specState
    rw [mapLookup_map]
    by_cases h : id ∈ parents
    · simp [h]
    · simp [h]

/-- Witness for C9 at a concrete input. -/
theorem partitionMerge_parentState_stable_witness :
    (∀ c ∈ [PMCall.updateWatermark 0 5], callId c ∈ ([0, 1] : List DatasetID))
    ∧ (∃ effs t',
        runCalls (NewPartitionMergeTransformation [0, 1]) [PMCall.updateWatermark 0 5]
          = some (effs, t')
        ∧ t'.parentState.map Prod.fst = [0, 1]
        ∧ (∀ (id : DatasetID) (m : Time),
            (t'.UpdateWatermark id m).isSome ↔ id ∈ ([0, 1] : List DatasetID))
        ∧ (∀ (id : DatasetID) (t : Time),
            (t'.UpdateProcessingTime id t).isSome ↔ id ∈ ([0, 1] : List DatasetID))
        ∧ (∀ (id : DatasetID) (e : Option Nat),
            (t'.Finish id e).isSome ↔ id ∈ ([0, 1] : List DatasetID))) :=
  ⟨by decide,
    partitionMerge_parentState_stable [0, 1] [PMCall.updateWatermark 0 5] (by decide)⟩

/-- C6, counterexample to the claim as stated: with parents 0 and 1, the
call sequence UpdateWatermark(0, 5); UpdateWatermark(1, 7);
UpdateWatermark(1, 3) makes the transformation forward the watermarks
0, 5, 3: the forwarded sequence is not monotonically non-decreasing,
because parent 1 lowered its own watermark from 7 to 3. -/
theorem partitionMerge_monotone_counterexample :
    runCalls (NewPartitionMergeTransformation [0, 1])
        [PMCall.updateWatermark 0 5, PMCall.updateWatermark 1 7,
          PMCall.updateWatermark 1 3]
      = some ([[DatasetEffect.watermark 0], [DatasetEffect.watermark 5],
            [DatasetEffect.watermark 3]],
          ⟨[(0, ⟨5, 0, false⟩), (1, ⟨3, 0, false⟩)]⟩)
    ∧ ¬ ((5 : Time) ≤ 3) := by
  constructor
  · decide
  · decide

def isUpdateWatermarkCall : PMCall → Bool
  | PMCall.updateWatermark _ _ => true
  | _ => false

def isUpdateProcessingTimeCall : PMCall → Bool
  | PMCall.updateProcessingTime _ _ => true
  | _ => false

theorem forall2_map_map {α : Type} (l : List α) (f g : α → Time)
    (h : ∀ a ∈ l, f a ≤ g a) :
    List.Forall₂ (fun a b => a ≤ b) (l.map f) (l.map g) := by
  induction l with
  | nil => exact List.Forall₂.nil
  | cons x xs ih =>
    exact List.Forall₂.cons (h x (List.mem_cons_self _ _))
      (ih (fun a ha => h a (List.mem_cons_of_mem _ ha)))

theorem lastMarkOf_take_mono_step (cs : List PMCall)
    (hmw : ∀ k : Fin cs.length, isUpdateWatermarkCall (cs.get k) = true →
        lastMarkOf (callId (cs.get k)) (cs.take k.1) ≤ callTime (cs.get k))
    (p : DatasetID) (k : Nat) :
    lastMarkOf p (cs.take k) ≤ lastMarkOf p (cs.take (k + 1)) := by
  rw [List.take_succ]
  cases hck : cs[k]? with
  | none => simp
  | some c =>
    have hk : k < cs.length := by
      by_contra hnk
      rw [List.getElem?_eq_none (Nat.le_of_not_lt hnk)] at hck
      exact Option.noConfusion hck
    have hget : cs.get ⟨k, hk⟩ = c := by
      have h2 := List.getElem?_eq_getElem hk
      rw [hck] at h2
      exact (Option.some.inj h2).symm
    simp only [Option.toList_some]
    cases c with
    | updateWatermark id m =>
      rw [lastMarkOf_snoc]
      show lastMarkOf p (List.take k cs) ≤
        if id = p then m else lastMarkOf p (List.take k cs)
      by_cases hip : id = p
      · subst hip
        rw [if_pos rfl]
        have hmono := hmw ⟨k, hk⟩ (by rw [hget]; rfl)
        rw [hget] at hmono
        simpa [callId, callTime] using hmono
      · rw [if_neg hip]
    | updateProcessingTime id t => rw [lastMarkOf_snoc]
    | retractTable id kk => rw [lastMarkOf_snoc]
    | finish id e => rw [lastMarkOf_snoc]

theorem lastPTOf_take_mono_step (cs : List PMCall)
    (hmp : ∀ k : Fin cs.length, isUpdateProcessingTimeCall (cs.get k) = true →
        lastPTOf (callId (cs.get k)) (cs.take k.1) ≤ callTime (cs.get k))
    (p : DatasetID) (k : Nat) :
    lastPTOf p (cs.take k) ≤ lastPTOf p (cs.take (k + 1)) := by
  rw [List.take_succ]
  cases hck : cs[k]? with
  | none => simp
  | some c =>
    have hk : k < cs.length := by
      by_contra hnk
      rw [List.getElem?_eq_none (Nat.le_of_not_lt hnk)] at hck
      exact Option.noConfusion hck
    have hget : cs.get ⟨k, hk⟩ = c := by
      have h2 := List.getElem?_eq_getElem hk
      rw [hck] at h2
      exact (Option.some.inj h2).symm
    simp only [Option.toList_some]
    cases c with
    | updateProcessingTime id t =>
      rw [lastPTOf_snoc]
      show lastPTOf p (List.take k cs) ≤
        if id = p then t else lastPTOf p (List.take k cs)
      by_cases hip : id = p
      · subst hip
        rw [if_pos rfl]
        have hmono := hmp ⟨k, hk⟩ (by rw [hget]; rfl)
        rw [hget] at hmono
        simpa [callId, callTime] using hmono
      · rw [if_neg hip]
    | updateWatermark id m => rw [lastPTOf_snoc]
    | retractTable id kk => rw [lastPTOf_snoc]
    | finish id e => rw [lastPTOf_snoc]

theorem specMinMark_take_mono (parents : List DatasetID) (cs : List PMCall)
    (hmw : ∀ k : Fin cs.length, isUpdateWatermarkCall (cs.get k) = true →
        lastMarkOf (callId (cs.get k)) (cs.take k.1) ≤ callTime (cs.get k)) :
    ∀ j1 j2 : Nat, j1 ≤ j2 →
      specMinMark parents (cs.take j1) ≤ specMinMark parents (cs.take j2) := by
  intro j1 j2 h
  induction h with
  | refl => exact le_refl _
  | @step m h2 ih =>
    refine le_trans ih ?_
    unfold specMinMark
    exact goMin_mono
      (forall2_map_map parents _ _
        (fun p _ => lastMarkOf_take_mono_step cs hmw p m))
      (le_refl _)

theorem specMinPT_take_mono (parents : List DatasetID) (cs : List PMCall)
    (hmp : ∀ k : Fin cs.length, isUpdateProcessingTimeCall (cs.get k) = true →
        lastPTOf (callId (cs.get k)) (cs.take k.1) ≤ callTime (cs.get k)) :
    ∀ j1 j2 : Nat, j1 ≤ j2 →
      specMinPT parents (cs.take j1) ≤ specMinPT parents (cs.take j2) := by
  intro j1 j2 h
  induction h with
  | refl => exact le_refl _
  | @step m h2 ih =>
    refine le_trans ih ?_
    unfold specMinPT
    exact goMin_mono
      (forall2_map_map parents _ _
        (fun p _ => lastPTOf_take_mono_step cs hmp p m))
      (le_refl _)

theorem effsFrom_watermark_eq (parents : List DatasetID) (cs : List PMCall)
    (k : Nat) (v : Time)
    (hk : (effsFrom parents [] cs)[k]? = some [DatasetEffect.watermark v]) :
    v = specMinMark parents (cs.take (k + 1)) := by
  have he := effsFrom_getElem parents cs [] k
  rw [hk] at he
  cases hck : cs[k]? with
  | none => rw [hck] at he; exact absurd he (by simp)
  | some c =>
    rw [hck, Option.map_some', List.nil_append] at he
    have hc := Option.some.inj he
    cases c with
    | updateWatermark id m =>
      simp only [effFor] at hc
      simpa using hc
    | updateProcessingTime id t => simp [effFor] at hc
    | retractTable id kk => simp [effFor] at hc
    | finish id e =>
      cases e with
      | some x =>
        simp only [effFor] at hc
        split at hc <;> simp at hc
      | none =>
        simp only [effFor] at hc
        split at hc <;> simp at hc

theorem effsFrom_processingTime_eq (parents : List DatasetID) (cs : List PMCall)
    (k : Nat) (v : Time)
    (hk : (effsFrom parents [] cs)[k]? = some [DatasetEffect.processingTime v]) :
    v = specMinPT parents (cs.take (k + 1)) := by
  have he := effsFrom_getElem parents cs [] k
  rw [hk] at he
  cases hck : cs[k]? with
  | none => rw [hck] at he; exact absurd he (by simp)
  | some c =>
    rw [hck, Option.map_some', List.nil_append] at he
    have hc := Option.some.inj he
    cases c with
    | updateProcessingTime id t =>
      simp only [effFor] at hc
      simpa using hc
    | updateWatermark id m => simp [effFor] at hc
    | retractTable id kk => simp [effFor] at hc
    | finish id e =>
      cases e with
      | some x =>
        simp only [effFor] at hc
        split at hc <;> simp at hc
      | none =>
        simp only [effFor] at hc
        split at hc <;> simp at hc

/-- C6 amended: the claim as stated fails (see the counterexample), but
it holds once each parent supplies values that never fall below that
parent's previous latest value, the initial value 0 included: under that
proviso the sequence of watermarks forwarded downstream and the sequence
of processing times forwarded downstream are each monotonically
non-decreasing, over any mixed sequence of calls from registered
parents. -/
theorem partitionMerge_monotone_of_parentwise_monotone
    (parents : List DatasetID) (cs : List PMCall)
    (hids : ∀ c ∈ cs, callId c ∈ parents)
    (hmw : ∀ k : Fin cs.length, isUpdateWatermarkCall (cs.get k) = true →
        lastMarkOf (callId (cs.get k)) (cs.take k.1) ≤ callTime (cs.get k))
    (hmp : ∀ k : Fin cs.length, isUpdateProcessingTimeCall (cs.get k) = true →
        lastPTOf (callId (cs.get k)) (cs.take k.1) ≤ callTime (cs.get k)) :
    ∃ effs t',
      runCalls (NewPartitionMergeTransformation parents) cs = some (effs, t')
      ∧ (∀ (k1 k2 : Nat) (v1 v2 : Time), k1 ≤ k2 →
          effs[k1]? = some [DatasetEffect.watermark v1] →
          effs[k2]? = some [DatasetEffect.watermark v2] → v1 ≤ v2)
      ∧ (∀ (k1 k2 : Nat) (v1 v2 : Time), k1 ≤ k2 →
          effs[k1]? = some [DatasetEffect.processingTime v1] →
          effs[k2]? = some [DatasetEffect.processingTime v2] → v1 ≤ v2) := by
  refine ⟨effsFrom parents [] cs, specState parents cs,
    runCalls_new parents cs hids, ?_, ?_⟩
  · intro k1 k2 v1 v2 hle h1 h2
    rw [effsFrom_watermark_eq parents cs k1 v1 h1,
      effsFrom_watermark_eq parents cs k2 v2 h2]
    exact specMinMark_take_mono parents cs hmw (k1 + 1) (k2 + 1)
      (Nat.succ_le_succ hle)
  · intro k1 k2 v1 v2 hle h1 h2
    rw [effsFrom_processingTime_eq parents cs k1 v1 h1,
      effsFrom_processingTime_eq parents cs k2 v2 h2]
    exact specMinPT_take_mono parents cs hmp (k1 + 1) (k2 + 1)
      (Nat.succ_le_succ hle)

/-- Witness for the amended C6 at a concrete input. -/
theorem partitionMerge_monotone_witness :
    (∀ c ∈ [PMCall.updateWatermark 0 5, PMCall.updateWatermark 1 3],
        callId c ∈ ([0, 1] : List DatasetID))
    ∧ (∀ k : Fin ([PMCall.updateWatermark 0 5, PMCall.updateWatermark 1 3] : List PMCall).length,
        isUpdateWatermarkCall (([PMCall.updateWatermark 0 5, PMCall.updateWatermark 1 3] : List PMCall).get k) = true →
        lastMarkOf (callId (([PMCall.updateWatermark 0 5, PMCall.updateWatermark 1 3] : List PMCall).get k))
            (([PMCall.updateWatermark 0 5, PMCall.updateWatermark 1 3] : List PMCall).take k.1)
          ≤ callTime (([PMCall.updateWatermark 0 5, PMCall.updateWatermark 1 3] : List PMCall).get k))
    ∧ (∀ k : Fin ([PMCall.updateWatermark 0 5, PMCall.updateWatermark 1 3] : List PMCall).length,
        isUpdateProcessingTimeCall (([PMCall.updateWatermark 0 5, PMCall.updateWatermark 1 3] : List PMCall).get k) = true →
        lastPTOf (callId (([PMCall.updateWatermark 0 5, PMCall.updateWatermark 1 3] : List PMCall).get k))
            (([PMCall.updateWatermark 0 5, PMCall.updateWatermark 1 3] : List PMCall).take k.1)
          ≤ callTime (([PMCall.updateWatermark 0 5, PMCall.updateWatermark 1 3] : List PMCall).get k))
    ∧ (∃ effs t',
        runCalls (NewPartitionMergeTransformation [0, 1])
            [PMCall.updateWatermark 0 5, PMCall.updateWatermark 1 3]
          = some (effs, t')
        ∧ (∀ (k1 k2 : Nat) (v1 v2 : Time), k1 ≤ k2 →
            effs[k1]? = some [DatasetEffect.watermark v1] →
            effs[k2]? = some [DatasetEffect.watermark v2] → v1 ≤ v2)
        ∧ (∀ (k1 k2 : Nat) (v1 v2 : Time), k1 ≤ k2 →
            effs[k1]? = some [DatasetEffect.processingTime v1] →
            effs[k2]? = some [DatasetEffect.processingTime v2] → v1 ≤ v2)) :=
  ⟨by decide, by decide, by decide,
    partitionMerge_monotone_of_parentwise_monotone [0, 1]
      [PMCall.updateWatermark 0 5, PMCall.updateWatermark 1 3]
      (by decide) (by decide) (by decide)⟩

/-!
Process and the buffered table copy (claim on partition-merge
transparency).  The table package (table.NewBufferedBuilder,
AppendBuffer, Table) is not among the given sources; per the
specification, the builder copies each incoming column buffer into a
fresh buffered table, so it is modelled as a content-preserving copy of
column-buffer lists.  The Process glue itself follows the source
(part_003 lines 96 to 112).
-/

/-- Column metadata: a label and a type tag. -/
structure ColMeta where
  label : String
  typ : Nat
deriving DecidableEq

/-- One column buffer (flux.ColReader): a schema and its rows; cell
values are abstracted to integers. -/
structure TableBuffer where
  cols : List ColMeta
  rows : List (List Int)
deriving DecidableEq

/-- A streaming table: a group key (ordered key-column name/value pairs)
and the sequence of buffers its Do iteration yields. -/
structure FluxTable where
  key : List (String × Int)
  buffers : List TableBuffer
deriving DecidableEq

/-- Modelled from the spec: table.BufferedBuilder accumulates copies of
appended column buffers under one group key. -/
structure BufferedBuilder where
  key : List (String × Int)
  buffers : List TableBuffer
deriving DecidableEq

/-- Modelled from the spec: table.NewBufferedBuilder(key, alloc) starts
with no buffers. -/
def NewBufferedBuilder (key : List (String × Int)) : BufferedBuilder :=
  ⟨key, []⟩

/-- Modelled from the spec: AppendBuffer copies the contents of the
column buffer into the builder (a fresh buffer with the same columns and
rows, never a live reference into the source buffer). -/
def BufferedBuilder.AppendBuffer (b : BufferedBuilder) (buf : TableBuffer) :
    BufferedBuilder :=
  { b with buffers := b.buffers ++ [⟨buf.cols, buf.rows⟩] }

/-- Modelled from the spec: Table() returns the buffered table built so
far. -/
def BufferedBuilder.Table (b : BufferedBuilder) : FluxTable :=
  ⟨b.key, b.buffers⟩

/-- Process (source lines 96 to 112): build a buffered builder on the
input table key, append every buffer the input iteration yields, and
forward the resulting table to the Dataset.  The returned table is the
one passed to t.dataset.Process. -/
def PartitionMergeTransformation.Process (tbl : FluxTable) : FluxTable :=
  (tbl.buffers.foldl BufferedBuilder.AppendBuffer (NewBufferedBuilder tbl.key)).Table

theorem appendBuffer_foldl (bufs : List TableBuffer) :
    ∀ (key : List (String × Int)) (acc : List TableBuffer),
      bufs.foldl BufferedBuilder.AppendBuffer ⟨key, acc⟩
        = ⟨key, acc ++ bufs⟩ := by
  induction bufs with
  | nil => intro key acc; simp
  | cons b bs ih =>
    intro key acc
    rw [List.foldl_cons]
    have hb : BufferedBuilder.AppendBuffer ⟨key, acc⟩ b = ⟨key, acc ++ [b]⟩ := rfl
    rw [hb, ih key (acc ++ [b]), List.append_assoc]
    rfl

/-- C5: the table forwarded to the Dataset by Process has the same group
key and exactly the same column buffers (columns and rows) as the input
table: the operator copies content without aggregation, filtering or
reordering.  Freshness of the copy is a heap property outside value
semantics; the content identity proved here is the observable part. -/
theorem partitionMerge_process_identity :
    ∀ tbl : FluxTable, PartitionMergeTransformation.Process tbl = tbl := by
  intro tbl
  unfold PartitionMergeTransformation.Process NewBufferedBuilder
  rw [appendBuffer_foldl tbl.buffers tbl.key []]
  rfl

/-!
The physical-plan attribute validator (plan.ValidateAttributes).  Its
body is not among the given sources; it is modelled from the
specification (required attributes must match the predecessor output;
propagating output attributes must be required by all successors) and
pinned by the test cases of parallel_test.go, whose expected error
strings fix the three message shapes and whose passing case fixes that
the all-successors rule does not apply to the parallel-merge output
attribute (the test plan where the merge output is not required by the
yield-side successor validates cleanly), so an attribute carries a flag
saying whether successors must require it: true for parallel-run, false
for parallel-merge.
-/

/-- A physical attribute value: its factor and whether every successor
must require it. -/
structure PhysicalAttr where
  factor : Int
  successorsMustRequire : Bool
deriving DecidableEq

/-- The parallel-run attribute: successors must require it. -/
def parallelRunAttr (f : Int) : PhysicalAttr := ⟨f, true⟩

/-- The parallel-merge attribute: successors need not require it. -/
def parallelMergeAttr (f : Int) : PhysicalAttr := ⟨f, false⟩

structure PhysicalPlanNode where
  id : String
  outputAttrs : List (String × PhysicalAttr)
  requiredAttrs : List (String × PhysicalAttr)
deriving DecidableEq

/-- A physical plan: nodes and predecessor-to-successor edges given as
indices into the node list, as in the test fixtures. -/
structure PlanSpec where
  nodes : List PhysicalPlanNode
  edges : List (Nat × Nat)
deriving DecidableEq

def attrLookup (l : List (String × PhysicalAttr)) (k : String) : Option PhysicalAttr :=
  match l with
  | [] => none
  | (k0, a) :: rest => if k0 = k then some a else attrLookup rest k

/-- The edges of the plan resolved to node pairs (predecessor,
successor). -/
def edgePairs (p : PlanSpec) : List (PhysicalPlanNode × PhysicalPlanNode) :=
  p.edges.filterMap (fun e =>
    match p.nodes[e.1]?, p.nodes[e.2]? with
    | some a, some b => some (a, b)
    | _, _ => none)

def quoteStr (s : String) : String := "\"" ++ s ++ "\""

/-- An apostrophe, kept out of the literals below. -/
def apos : String := String.singleton (Char.ofNat 39)

/-- Message shape (a) of the test fixtures: required attribute absent
from the predecessor. -/
def errMissing (k succ pred : String) : String :=
  "invalid physical query plan; attribute " ++ quoteStr k ++ " required by "
    ++ quoteStr succ ++ " is missing from predecessor " ++ quoteStr pred

/-- Message shape (c) of the test fixtures: values present on both sides
but unequal. -/
def errMismatch (k succ pred : String) : String :=
  "invalid physical query plan; attribute " ++ quoteStr k ++ " required by "
    ++ quoteStr succ ++ " does not match attribute in predecessor " ++ quoteStr pred

/-- Message shape (b) of the test fixtures: output attribute not
required by some successor. -/
def errMustRequire (k pred succ : String) : String :=
  "invalid physical query plan; attribute " ++ quoteStr k ++ " on "
    ++ quoteStr pred ++ " must be required by all successors, but isn"
    ++ apos ++ "t on " ++ quoteStr succ

/-- Modelled from the spec: for one edge, every attribute the successor
requires must be present on the predecessor output with an equal
value. -/
def requiredErrsFor (pred succ : PhysicalPlanNode) : List String :=
  succ.requiredAttrs.filterMap (fun ka =>
    match attrLookup pred.outputAttrs ka.1 with
    | none => some (errMissing ka.1 succ.id pred.id)
    | some oa => if oa = ka.2 then none else some (errMismatch ka.1 succ.id pred.id))

/-- Modelled from the spec: for one edge, every propagating output
attribute of the predecessor must be required by the successor. -/
def outputErrsFor (pred succ : PhysicalPlanNode) : List String :=
  pred.outputAttrs.filterMap (fun ka =>
    if ka.2.successorsMustRequire then
      match attrLookup succ.requiredAttrs ka.1 with
      | none => some (errMustRequire ka.1 pred.id succ.id)
      | some _ => none
    else none)

def edgeErrs (pr : PhysicalPlanNode × PhysicalPlanNode) : List String :=
  requiredErrsFor pr.1 pr.2 ++ outputErrsFor pr.1 pr.2

/-- Modelled from the spec: plan.ValidateAttributes walks every edge and
returns the first attribute inconsistency, nil when there is none. -/
def ValidateAttributes (p : PlanSpec) : Option String :=
  ((edgePairs p).flatMap edgeErrs).head?

/-- Every required attribute of every successor is matched by an equal
output attribute on each direct predecessor. -/
def requiredMatched (p : PlanSpec) : Prop :=
  ∀ pair ∈ edgePairs p, ∀ ka ∈ pair.2.requiredAttrs,
    attrLookup pair.1.outputAttrs ka.1 = some ka.2

/-- Every output attribute of every predecessor is required by each of
its successors (the condition of the claim as written, with no flag). -/
def outputsAllRequired (p : PlanSpec) : Prop :=
  ∀ pair ∈ edgePairs p, ∀ ka ∈ pair.1.outputAttrs,
    (attrLookup pair.2.requiredAttrs ka.1).isSome = true

/-- Every propagating output attribute (successorsMustRequire) of every
predecessor is required by each of its successors. -/
def outputsFlaggedRequired (p : PlanSpec) : Prop :=
  ∀ pair ∈ edgePairs p, ∀ ka ∈ pair.1.outputAttrs,
    ka.2.successorsMustRequire = true →
      (attrLookup pair.2.requiredAttrs ka.1).isSome = true

instance (p : PlanSpec) : Decidable (requiredMatched p) := by
  unfold requiredMatched; infer_instance

instance (p : PlanSpec) : Decidable (outputsAllRequired p) := by
  unfold outputsAllRequired; infer_instance

instance (p : PlanSpec) : Decidable (outputsFlaggedRequired p) := by
  unfold outputsFlaggedRequired; infer_instance

/-! The five plans of TestParallel_Execute, attributes only. -/

def fromNodeRun2 : PhysicalPlanNode :=
  ⟨"from-test", [("parallel-run", parallelRunAttr 2)], []⟩

def fromNodePlain : PhysicalPlanNode := ⟨"from-test", [], []⟩

def mergeNode2 : PhysicalPlanNode :=
  ⟨"merge", [("parallel-merge", parallelMergeAttr 2)],
    [("parallel-run", parallelRunAttr 2)]⟩

def mergeNode1 : PhysicalPlanNode :=
  ⟨"merge", [("parallel-merge", parallelMergeAttr 1)],
    [("parallel-run", parallelRunAttr 1)]⟩

def filterNodePlain : PhysicalPlanNode := ⟨"filter", [], []⟩

def filterNodeReqOut2 : PhysicalPlanNode :=
  ⟨"filter", [("parallel-run", parallelRunAttr 2)],
    [("parallel-run", parallelRunAttr 2)]⟩

def filterNodeOutOnly2 : PhysicalPlanNode :=
  ⟨"filter", [("parallel-run", parallelRunAttr 2)], []⟩

def filterNodeReqOut1 : PhysicalPlanNode :=
  ⟨"filter", [("parallel-run", parallelRunAttr 1)],
    [("parallel-run", parallelRunAttr 1)]⟩

def yieldNode : PhysicalPlanNode := ⟨"yield", [], []⟩

/-- Test case parallel-from: from-test, merge, filter, yield. -/
def planParallelFrom : PlanSpec :=
  ⟨[fromNodeRun2, mergeNode2, filterNodePlain, yieldNode],
    [(0, 1), (1, 2), (2, 3)]⟩

/-- Test case parallel-from-filter: from-test, filter, merge, yield. -/
def planParallelFromFilter : PlanSpec :=
  ⟨[fromNodeRun2, filterNodeReqOut2, mergeNode2, yieldNode],
    [(0, 1), (1, 2), (2, 3)]⟩

/-- Test case from-missing-output. -/
def planFromMissingOutput : PlanSpec :=
  ⟨[fromNodePlain, filterNodeReqOut2, mergeNode2, yieldNode],
    [(0, 1), (1, 2), (2, 3)]⟩

/-- Test case from-missing-required. -/
def planFromMissingRequired : PlanSpec :=
  ⟨[fromNodeRun2, filterNodeOutOnly2, mergeNode2, yieldNode],
    [(0, 1), (1, 2), (2, 3)]⟩

/-- Test case from-factor-mismatch. -/
def planFromFactorMismatch : PlanSpec :=
  ⟨[fromNodeRun2, filterNodeReqOut1, mergeNode1, yieldNode],
    [(0, 1), (1, 2), (2, 3)]⟩

/-! The model reproduces the outcomes the test in the sources expects. -/

theorem validate_parallel_from :
    ValidateAttributes planParallelFrom = none := rfl

theorem validate_parallel_from_filter :
    ValidateAttributes planParallelFromFilter = none := rfl

theorem validate_from_missing_output :
    ValidateAttributes planFromMissingOutput
      = some (errMissing "parallel-run" "filter" "from-test") := rfl

theorem validate_from_missing_required :
    ValidateAttributes planFromMissingRequired
      = some (errMustRequire "parallel-run" "from-test" "filter") := rfl

theorem validate_from_factor_mismatch :
    ValidateAttributes planFromFactorMismatch
      = some (errMismatch "parallel-run" "filter" "from-test") := rfl

/-- C4, counterexample to the claim as stated: the parallel-from test
plan validates cleanly (as its test expects) although the merge node has
an output attribute, parallel-merge, that its successor filter does not
require; so success does not need every predecessor output attribute to
be required by all successors, only the propagating ones. -/
theorem validateAttributes_claim_counterexample :
    ValidateAttributes planParallelFrom = none
    ∧ ¬ outputsAllRequired planParallelFrom := by
  constructor
  · rfl
  · decide

theorem requiredErrsFor_eq_nil (pred succ : PhysicalPlanNode) :
    requiredErrsFor pred succ = []
      ↔ ∀ ka ∈ succ.requiredAttrs, attrLookup pred.outputAttrs ka.1 = some ka.2 := by
  unfold requiredErrsFor
  rw [List.filterMap_eq_nil_iff]
  constructor
  · intro h ka hka
    have h5 := h ka hka
    revert h5
    cases hl : attrLookup pred.outputAttrs ka.1 with
    | none => intro h5; exact absurd h5 (by simp)
    | some oa =>
      intro h5
      by_cases heq : oa = ka.2
      · rw [heq]
      · simp [heq] at h5
  · intro h ka hka
    rw [h ka hka]
    simp

theorem outputErrsFor_eq_nil (pred succ : PhysicalPlanNode) :
    outputErrsFor pred succ = []
      ↔ ∀ ka ∈ pred.outputAttrs, ka.2.successorsMustRequire = true →
          (attrLookup succ.requiredAttrs ka.1).isSome = true := by
  unfold outputErrsFor
  rw [List.filterMap_eq_nil_iff]
  constructor
  · intro h ka hka hflag
    have h5 := h ka hka
    rw [if_pos hflag] at h5
    revert h5
    cases hl : attrLookup succ.requiredAttrs ka.1 with
    | none => intro h5; exact absurd h5 (by simp)
    | some oa => intro _; simp
  · intro h ka hka
    by_cases hflag : ka.2.successorsMustRequire = true
    · rw [if_pos hflag]
      have := h ka hka hflag
      revert this
      cases hl : attrLookup succ.requiredAttrs ka.1 with
      | none => intro hh; exact absurd hh (by simp)
      | some oa => intro _; rfl
    · rw [if_neg hflag]

/-- C4 amended: validation returns nil exactly when every required
attribute of every successor is matched by an equal output attribute on
each direct predecessor and every propagating (successorsMustRequire)
output attribute of every predecessor is required by each of its
successors; and every returned error is one of the three message shapes
of the test fixtures, carrying the attribute key and the ids of the two
nodes of a real edge that exhibits the violation. -/
theorem ValidateAttributes_spec (p : PlanSpec) :
    (ValidateAttributes p = none ↔ (requiredMatched p ∧ outputsFlaggedRequired p))
    ∧ (∀ e, ValidateAttributes p = some e →
        ∃ pred succ, (pred, succ) ∈ edgePairs p ∧
          ((∃ k ra, (k, ra) ∈ succ.requiredAttrs
              ∧ attrLookup pred.outputAttrs k = none
              ∧ e = errMissing k succ.id pred.id)
           ∨ (∃ k ra oa, (k, ra) ∈ succ.requiredAttrs
              ∧ attrLookup pred.outputAttrs k = some oa ∧ oa ≠ ra
              ∧ e = errMismatch k succ.id pred.id)
           ∨ (∃ k oa, (k, oa) ∈ pred.outputAttrs
              ∧ oa.successorsMustRequire = true
              ∧ attrLookup succ.requiredAttrs k = none
              ∧ e = errMustRequire k pred.id succ.id))) := by
  constructor
  · unfold ValidateAttributes
    rw [List.head?_eq_none_iff, List.flatMap_eq_nil_iff]
    constructor
    · intro h
      constructor
      · intro pair hpair
        have h2 := h pair hpair
        unfold edgeErrs at h2
        exact (requiredErrsFor_eq_nil pair.1 pair.2).mp
          (List.append_eq_nil.mp h2).1
      · intro pair hpair
        have h2 := h pair hpair
        unfold edgeErrs at h2
        exact (outputErrsFor_eq_nil pair.1 pair.2).mp
          (List.append_eq_nil.mp h2).2
    · rintro ⟨hreq, hout⟩ pr hpr
      unfold edgeErrs
      rw [List.append_eq_nil]
      exact ⟨(requiredErrsFor_eq_nil pr.1 pr.2).mpr (hreq pr hpr),
        (outputErrsFor_eq_nil pr.1 pr.2).mpr (hout pr hpr)⟩
  · intro e he
    unfold ValidateAttributes at he
    have hmem : e ∈ (edgePairs p).flatMap edgeErrs := by
      cases hl : (edgePairs p).flatMap edgeErrs with
      | nil => rw [hl] at he; cases he
      | cons a t =>
        rw [hl] at he
        have ha : a = e := by simpa using he
        rw [← ha]
        exact List.mem_cons_self _ _
    rcases List.mem_flatMap.mp hmem with ⟨pr, hpr, hepr⟩
    refine ⟨pr.1, pr.2, hpr, ?_⟩
    unfold edgeErrs at hepr
    rcases List.mem_append.mp hepr with hin | hin
    · unfold requiredErrsFor at hin
      rcases List.mem_filterMap.mp hin with ⟨ka, hka, hfa⟩
      revert hfa
      cases hl : attrLookup pr.1.outputAttrs ka.1 with
      | none =>
        intro hfa
        exact Or.inl ⟨ka.1, ka.2, hka, hl, (Option.some.inj hfa).symm⟩
      | some oa =>
        intro hfa
        by_cases heq : oa = ka.2
        · simp [heq] at hfa
        · simp [heq] at hfa
          exact Or.inr (Or.inl ⟨ka.1, ka.2, oa, hka, hl, heq, hfa.symm⟩)
    · unfold outputErrsFor at hin
      rcases List.mem_filterMap.mp hin with ⟨ka, hka, hfa⟩
      revert hfa
      by_cases hflag : ka.2.successorsMustRequire = true
      · rw [if_pos hflag]
        cases hl : attrLookup pr.2.requiredAttrs ka.1 with
        | none =>
          intro hfa
          exact Or.inr (Or.inr
            ⟨ka.1, ka.2, hka, hflag, hl, (Option.some.inj hfa).symm⟩)
        | some oa => intro hfa; exact Option.noConfusion hfa
      · rw [if_neg hflag]
        intro hfa
        exact Option.noConfusion hfa

/-- Witness for C4 at a concrete input: the consistent parallel-from
plan of the test validates to nil through the amended condition. -/
theorem ValidateAttributes_spec_witness :
    (requiredMatched planParallelFrom ∧ outputsFlaggedRequired planParallelFrom)
    ∧ ValidateAttributes planParallelFrom = none :=
  ⟨by decide, (ValidateAttributes_spec planParallelFrom).1.mpr (by decide)⟩

/-!
The test executor (testExecutor.Run, part_000 lines 42 to 96).  The
sequence of externally visible steps is embedded as an event trace:
consuming one stringified table, releasing the result iterator, and the
allocator leak check (mem.AssertSize plus the logger-error count test).
Collaborator outcomes the source only branches on (marshal, compile,
Start, the per-result Do error, results.Err, the number of
allocation-size complaints the checked allocator logs) are inputs of the
embedding.
-/

inductive ErrCode where
  | invalid
  | inherit
  | failedPrecondition
deriving DecidableEq

/-- flux errors: a fresh error or a wrap of an inner error
(errors.New / errors.Wrap). -/
inductive FluxError where
  | base (code : ErrCode) (msg : String)
  | wrap (inner : FluxError) (code : ErrCode) (msg : String)
deriving DecidableEq

/-- One result stream: the stringified tables its Do callback prints,
and the error Do returns after them (none on clean end of stream). -/
structure ResultStream where
  tables : List String
  doErr : Option FluxError
deriving DecidableEq

structure RunInput where
  marshalErr : Option FluxError
  compileErr : Option FluxError
  startErr : Option FluxError
  results : List ResultStream
  resultsErr : Option FluxError
  leakErrs : Nat
deriving DecidableEq

inductive RunEvent where
  | consume (s : String)
  | release
  | leakCheck
deriving DecidableEq

/-- The dedicated leak error of the source:
errors.New(codes.FailedPrecondition, "Memory leak detected"). -/
def memoryLeakError : FluxError :=
  FluxError.base ErrCode.failedPrecondition "Memory leak detected"

/-- The result-consumption loop: events, accumulated output text, and
the first Do error (which aborts the loop in the source). -/
def consumeResults : List ResultStream → List RunEvent × String × Option FluxError
  | [] => ([], "", none)
  | r :: rs =>
    match r.doErr with
    | some e => (r.tables.map RunEvent.consume, String.join r.tables, some e)
    | none =>
      let rest := consumeResults rs
      (r.tables.map RunEvent.consume ++ rest.1, String.join r.tables ++ rest.2.1, rest.2.2)

/-- testExecutor.Run: marshal, compile, start, consume every result
stream, release, derive the execution error, then check the allocator
for unreleased allocations and report a leak as its own error. -/
def testExecutorRun (inp : RunInput) : List RunEvent × Option FluxError :=
  match inp.marshalErr with
  | some e => ([], some e)
  | none =>
    match inp.compileErr with
    | some e => ([], some (FluxError.wrap e ErrCode.invalid "failed to compile"))
    | none =>
      match inp.startErr with
      | some e => ([], some (FluxError.wrap e ErrCode.inherit "error while executing program"))
      | none =>
        let cr := consumeResults inp.results
        match cr.2.2 with
        | some e => (cr.1, some e)
        | none =>
          let err1 : Option FluxError :=
            match inp.resultsErr with
            | some e => some e
            | none =>
              if cr.2.1.length > 0 then
                some (FluxError.base ErrCode.failedPrecondition
                  ("Expected test to have no output. Got:\n" ++ cr.2.1))
              else none
          let err2 := if inp.leakErrs > 0 then some memoryLeakError else err1
          (cr.1 ++ [RunEvent.release, RunEvent.leakCheck], err2)

theorem leakCheck_not_mem_consume (rs : List ResultStream) :
    RunEvent.leakCheck ∉ (consumeResults rs).1 := by
  induction rs with
  | nil => simp [consumeResults]
  | cons r rs ih =>
    cases hd : r.doErr with
    | some e => simp [consumeResults, hd]
    | none =>
      simp only [consumeResults, hd, List.mem_append, List.mem_map]
      rintro (⟨s, _, hs⟩ | hmem)
      · exact RunEvent.noConfusion hs
      · exact ih hmem

theorem consumeResults_events_of_ok (rs : List ResultStream)
    (h : (consumeResults rs).2.2 = none) :
    (consumeResults rs).1 = rs.flatMap (fun r => r.tables.map RunEvent.consume) := by
  induction rs with
  | nil => simp [consumeResults]
  | cons r rs ih =>
    cases hd : r.doErr with
    | some e =>
      rw [consumeResults] at h
      rw [hd] at h
      exact absurd h (by simp)
    | none =>
      rw [consumeResults] at h ⊢
      rw [hd] at h ⊢
      simp only at h ⊢
      rw [List.flatMap_cons, ih h]

/-- C8: whenever the leak check runs at all, it is the final event of
the run, after every table of every result stream has been consumed and
the iterator released (early error returns skip it entirely, so it never
happens mid-execution); and when it detects unreleased allocations
(leakErrs > 0) the run returns the dedicated error
FailedPrecondition "Memory leak detected", a fixed error value
independent of (and so kept distinct from) whatever execution error the
query produced. -/
theorem testExecutorRun_leak_check (inp : RunInput) :
    (RunEvent.leakCheck ∈ (testExecutorRun inp).1 →
      (testExecutorRun inp).1
        = inp.results.flatMap (fun r => r.tables.map RunEvent.consume)
          ++ [RunEvent.release, RunEvent.leakCheck])
    ∧ (RunEvent.leakCheck ∈ (testExecutorRun inp).1 → inp.leakErrs > 0 →
        (testExecutorRun inp).2 = some memoryLeakError) := by
  cases hm : inp.marshalErr with
  | some e =>
    constructor <;> intro h <;> simp [testExecutorRun, hm] at h
  | none =>
    cases hc : inp.compileErr with
    | some e =>
      constructor <;> intro h <;> simp [testExecutorRun, hm, hc] at h
    | none =>
      cases hs : inp.startErr with
      | some e =>
        constructor <;> intro h <;> simp [testExecutorRun, hm, hc, hs] at h
      | none =>
        cases hcr : (consumeResults inp.results).2.2 with
        | some e =>
          have hnm := leakCheck_not_mem_consume inp.results
          constructor
          · intro h
            rw [testExecutorRun] at h
            rw [hm, hc, hs] at h
            simp only [hcr] at h
            exact absurd h hnm
          · intro h _
            rw [testExecutorRun] at h
            rw [hm, hc, hs] at h
            simp only [hcr] at h
            exact absurd h hnm
        | none =>
          have hevents := consumeResults_events_of_ok inp.results hcr
          constructor
          · intro _
            rw [testExecutorRun]
            rw [hm, hc, hs]
            simp only [hcr, hevents]
          · intro _ hleak
            rw [testExecutorRun]
            rw [hm, hc, hs]
            simp only [hcr]
            simp [hleak]

/-- Witness for C8 at a concrete input: one stream with one table,
no execution error, one unreleased allocation reported. -/
theorem testExecutorRun_leak_check_witness :
    (testExecutorRun ⟨none, none, none, [⟨["t1"], none⟩], none, 1⟩).1
        = ([⟨["t1"], none⟩] : List ResultStream).flatMap
            (fun r => r.tables.map RunEvent.consume)
          ++ [RunEvent.release, RunEvent.leakCheck]
    ∧ (testExecutorRun ⟨none, none, none, [⟨["t1"], none⟩], none, 1⟩).2
        = some memoryLeakError :=
  ⟨(testExecutorRun_leak_check ⟨none, none, none, [⟨["t1"], none⟩], none, 1⟩).1
      (by decide),
    (testExecutorRun_leak_check ⟨none, none, none, [⟨["t1"], none⟩], none, 1⟩).2
      (by decide) (by decide)⟩

/-!
Bytecode synthesis (interpreter/synthesis.go).  The opcode byte
constants of the bytecode/types package are not among the sources; only
their identity matters here, so they are embedded as distinct tags.  The
Args field of an opcode (interface value in Go) carries the literal 0,
a LoadValue payload or an AppendSideEffect payload; the value and
semantic-node types are parameters of the embedding.
-/

inductive OpIn where
  | IN_CONS_SIDE_EFFECTS
  | IN_LOAD_VALUE
  | IN_APPEND_SIDE_EFFECT
  | IN_PROGRAM_START
deriving DecidableEq

inductive OpArgs (V N : Type) where
  | natArg (n : Nat)
  | loadValue (value : V)
  | appendSideEffect (node : N)

/-- bctypes.OpCode: instruction tag and arguments. -/
structure OpCode (V N : Type) where
  instr : OpIn
  args : OpArgs V N

/-- A side effect: its value and its semantic node. -/
structure SideEffect (V N : Type) where
  value : V
  node : N

/-- The interpreter state the synthesis code touches: the emitted code
list. -/
structure Interpreter (V N : Type) where
  code : List (OpCode V N)

/-- appendCode (source lines 25 to 27): append one opcode. -/
def Interpreter.appendCode {V N : Type} (itrp : Interpreter V N)
    (instr : OpIn) (args : OpArgs V N) : Interpreter V N :=
  { itrp with code := itrp.code ++ [⟨instr, args⟩] }

/-- SynthesisTo (source lines 42 to 59): emit IN_CONS_SIDE_EFFECTS, the
LoadValue of the side effect value, the AppendSideEffect of its node,
then IN_PROGRAM_START, and return nil. -/
def Interpreter.SynthesisTo {V N : Type} (itrp : Interpreter V N)
    (sideEffect : SideEffect V N) : Option String × Interpreter V N :=
  let i1 := itrp.appendCode OpIn.IN_CONS_SIDE_EFFECTS (OpArgs.natArg 0)
  let i2 := i1.appendCode OpIn.IN_LOAD_VALUE (OpArgs.loadValue sideEffect.value)
  let i3 := i2.appendCode OpIn.IN_APPEND_SIDE_EFFECT (OpArgs.appendSideEffect sideEffect.node)
  let i4 := i3.appendCode OpIn.IN_PROGRAM_START (OpArgs.natArg 0)
  (none, i4)

/-- C10: every SynthesisTo call returns nil and appends exactly the four
opcodes IN_CONS_SIDE_EFFECTS, IN_LOAD_VALUE with the side effect value,
IN_APPEND_SIDE_EFFECT with the side effect node, IN_PROGRAM_START, in
that order, to the existing code list, leaving all previously emitted
opcodes in place. -/
theorem synthesisTo_appends_four {V N : Type} (itrp : Interpreter V N)
    (sideEffect : SideEffect V N) :
    (itrp.SynthesisTo sideEffect).1 = none
    ∧ (itrp.SynthesisTo sideEffect).2.code
        = itrp.code ++
          [⟨OpIn.IN_CONS_SIDE_EFFECTS, OpArgs.natArg 0⟩,
            ⟨OpIn.IN_LOAD_VALUE, OpArgs.loadValue sideEffect.value⟩,
            ⟨OpIn.IN_APPEND_SIDE_EFFECT, OpArgs.appendSideEffect sideEffect.node⟩,
            ⟨OpIn.IN_PROGRAM_START, OpArgs.natArg 0⟩] := by
  constructor
  · rfl
  · show ((itrp.code ++ _) ++ _) ++ _ ++ _ = _
    simp [List.append_assoc]
